import Mathlib

/-!
Verification development for the pipelined execution layer (PEL) of
gravity-reth (`crates/pipe-exec-layer-ext-v2/src/lib.rs`).

The development shallowly embeds:
* the transaction pre-filter `filter_invalid_txs` (source lines 400-472);
* the verification handshake `Core::verify_executed_block_hash` (lines 230-237);
* the per-block pipeline `Core::process` as an effect trace over explicit
  channel results (lines 139-228);
* the dispatch loop `PipeExecService::run` (lines 107-133);
* the header-skeleton construction of `Core::execute_ordered_block`
  (lines 239-302);
* the make-canonical barrier discipline of stage 6 as an interleaving
  transition system (the `channel` module is not part of the published
  sources, so the keyed rendezvous channel is modelled from the spec).

Machine integers are modelled as `Nat` with explicit reduction modulo
`2 ^ 64` / `2 ^ 256` where the Rust types could overflow.
-/

namespace GravityReth

/-- Account state read by the pre-filter (revm `AccountInfo`): nonce and balance. -/
structure AccountInfo where
  nonce : Nat
  balance : Nat
deriving DecidableEq, Repr

/-- The fields of a signed transaction that `filter_invalid_txs` reads:
`nonce()`, `gas_limit()` and `priority_fee_or_price()`. -/
structure Tx where
  nonce : Nat
  gas_limit : Nat
  priority_fee_or_price : Nat
deriving DecidableEq, Repr

instance : Inhabited Tx := ⟨⟨0, 0, 0⟩⟩

/-- Sender addresses, abstracted to naturals (only equality is used). -/
abbrev Address := Nat

/-- Read-only state view: `db.basic_ref(sender)` returns the account if the
sender exists in the state. -/
abbrev StateView := Address → Option AccountInfo

/-- Bound of `u64` values. -/
def U64LIM : Nat := 2 ^ 64

/-- Bound of `u128` values. -/
def U128LIM : Nat := 2 ^ 128

/-- Bound of `U256` values. -/
def U256LIM : Nat := 2 ^ 256

/-- The charge the pre-filter debits per transaction:
`U256::from(gas_limit) * (U256::from(priority_fee_or_price) + base_fee_per_gas)`,
in 256-bit unsigned arithmetic. -/
def gas_spent (base_fee_per_gas : Nat) (tx : Tx) : Nat :=
  (tx.gas_limit * ((tx.priority_fee_or_price + base_fee_per_gas) % U256LIM)) % U256LIM

/-- The `is_tx_valid` closure of `filter_invalid_txs`: checks the nonce, then
the balance against `gas_spent`; on success debits the balance and bumps the
nonce (a `u64` increment). Returns the verdict and the updated account. -/
def is_tx_valid (base_fee_per_gas : Nat) (tx : Tx) (account : AccountInfo) :
    Bool × AccountInfo :=
  if account.nonce ≠ tx.nonce then (false, account)
  else if account.balance < gas_spent base_fee_per_gas tx then (false, account)
  else (true, ⟨(account.nonce + 1) % U64LIM, account.balance - gas_spent base_fee_per_gas tx⟩)

/-- The `sender_idx` bucket of one sender: the indices `i` with
`senders[i] == s`, in ascending order (the buckets are built by an
enumerate-and-push loop, so each bucket keeps original order). -/
def bucketOf (senders : List Address) (s : Address) : List Nat :=
  (List.range senders.length).filter (fun i => decide (senders.getD i 0 = s))

/-- The sequential per-sender pass
`idxs.into_iter().filter(|&idx| !is_tx_valid(&txs[idx], sender, &mut account))`:
collects the invalid indices of one bucket while threading the account. -/
def invalid_of_sender (base_fee_per_gas : Nat) (txs : List Tx) :
    AccountInfo → List Nat → List Nat
  | _, [] => []
  | account, i :: rest =>
    match is_tx_valid base_fee_per_gas (txs.getD i default) account with
    | (true, account1) => invalid_of_sender base_fee_per_gas txs account1 rest
    | (false, account1) => i :: invalid_of_sender base_fee_per_gas txs account1 rest

/-- Per-sender contribution to the invalid set: if `db.basic_ref(sender)`
returns no account, the whole bucket is invalid, otherwise the sequential
pass starting from the on-chain account decides. -/
def per_sender_invalid (db : StateView) (base_fee_per_gas : Nat) (txs : List Tx)
    (senders : List Address) (s : Address) : List Nat :=
  match db s with
  | some account => invalid_of_sender base_fee_per_gas txs account (bucketOf senders s)
  | none => bucketOf senders s

/-- Union of the per-sender invalid indices, taken over an explicit iteration
order of the distinct senders. The Rust code folds the buckets through a
parallel `flat_map` into a `HashSet`, so the iteration order is arbitrary;
only membership in the result is ever used. -/
def invalid_idxs_with (db : StateView) (base_fee_per_gas : Nat) (txs : List Tx)
    (senders : List Address) (order : List Address) : List Nat :=
  order.flatMap (per_sender_invalid db base_fee_per_gas txs senders)

/-- The invalid-index set with the distinct senders iterated in a canonical
order. -/
def invalid_idxs (db : StateView) (base_fee_per_gas : Nat) (txs : List Tx)
    (senders : List Address) : List Nat :=
  invalid_idxs_with db base_fee_per_gas txs senders senders.dedup

/-- The final collection loop of `filter_invalid_txs`: walk
`txs.zip(senders)` with the running index `i`, skipping `i ∈ invalid_idxs`. -/
def filter_loop (inv : List Nat) : Nat → List (Tx × Address) → List (Tx × Address)
  | _, [] => []
  | i, p :: rest =>
    if i ∈ inv then filter_loop inv (i + 1) rest
    else p :: filter_loop inv (i + 1) rest

/-- `filter_invalid_txs(db, txs, senders, base_fee_per_gas)`: drops the
transactions judged invalid against the state view; when no index is invalid
the inputs are returned unchanged (the `is_empty` fast path). -/
def filter_invalid_txs (db : StateView) (txs : List Tx) (senders : List Address)
    (base_fee_per_gas : Nat) : List Tx × List Address :=
  let inv := invalid_idxs db base_fee_per_gas txs senders
  if inv.isEmpty then (txs, senders)
  else
    let kept := filter_loop inv 0 (txs.zip senders)
    (kept.map Prod.fst, kept.map Prod.snd)

/-! ### Basic lemmas about the pre-filter -/

theorem invalid_of_sender_sublist (bf : Nat) (txs : List Tx) (idxs : List Nat) :
    ∀ a : AccountInfo, List.Sublist (invalid_of_sender bf txs a idxs) idxs := by
  induction idxs with
  | nil => intro a; simp [invalid_of_sender]
  | cons i rest ih =>
    intro a
    simp only [invalid_of_sender]
    rcases h : is_tx_valid bf (txs.getD i default) a with ⟨ok, a1⟩
    cases ok
    · exact List.Sublist.cons₂ i (ih a1)
    · exact List.Sublist.cons i (ih a1)

theorem mem_bucketOf {senders : List Address} {s : Address} {i : Nat} :
    i ∈ bucketOf senders s ↔ i < senders.length ∧ senders.getD i 0 = s := by
  simp [bucketOf, List.mem_filter, List.mem_range]

theorem bucketOf_pairwise (senders : List Address) (s : Address) :
    (bucketOf senders s).Pairwise (· < ·) :=
  List.Pairwise.sublist (List.filter_sublist _) (List.pairwise_lt_range _)

theorem bucketOf_nodup (senders : List Address) (s : Address) :
    (bucketOf senders s).Nodup :=
  (bucketOf_pairwise senders s).imp (fun h => Nat.ne_of_lt h)

theorem mem_per_sender_invalid {db : StateView} {bf : Nat} {txs : List Tx}
    {senders : List Address} {s : Address} {i : Nat}
    (h : i ∈ per_sender_invalid db bf txs senders s) : i ∈ bucketOf senders s := by
  unfold per_sender_invalid at h
  cases hdb : db s with
  | none => rw [hdb] at h; exact h
  | some account =>
    rw [hdb] at h
    exact (invalid_of_sender_sublist bf txs (bucketOf senders s) account).mem h

theorem mem_invalid_idxs_with {db : StateView} {bf : Nat} {txs : List Tx}
    {senders : List Address} {order : List Address} {i : Nat} :
    i ∈ invalid_idxs_with db bf txs senders order ↔
      ∃ s ∈ order, i ∈ per_sender_invalid db bf txs senders s := by
  simp [invalid_idxs_with, List.mem_flatMap]

theorem mem_invalid_idxs {db : StateView} {bf : Nat} {txs : List Tx}
    {senders : List Address} {i : Nat} :
    i ∈ invalid_idxs db bf txs senders ↔
      i < senders.length ∧
        i ∈ per_sender_invalid db bf txs senders (senders.getD i 0) := by
  constructor
  · intro h
    obtain ⟨s, _, hper⟩ := mem_invalid_idxs_with.mp h
    have hb := mem_per_sender_invalid hper
    obtain ⟨hlt, heq⟩ := mem_bucketOf.mp hb
    exact ⟨hlt, heq ▸ hper⟩
  · rintro ⟨hlt, hper⟩
    refine mem_invalid_idxs_with.mpr ⟨senders.getD i 0, ?_, hper⟩
    rw [List.mem_dedup]
    rw [List.getD_eq_getElem senders 0 hlt]
    exact List.getElem_mem hlt

/-! ### Characterizing the output of `filter_invalid_txs` -/

theorem filter_loop_eq (inv : List Nat) (l : List (Tx × Address)) :
    ∀ k : Nat,
      filter_loop inv k l =
        ((List.range' k l.length).filter (fun j => decide (j ∉ inv))).map
          (fun j => l.getD (j - k) default) := by
  induction l with
  | nil => intro k; simp [filter_loop]
  | cons p rest ih =>
    intro k
    have htail :
        ((List.range' (k + 1) rest.length).filter (fun j => decide (j ∉ inv))).map
            (fun j => (p :: rest).getD (j - k) default) =
          ((List.range' (k + 1) rest.length).filter (fun j => decide (j ∉ inv))).map
            (fun j => rest.getD (j - (k + 1)) default) := by
      apply List.map_congr_left
      intro j hj
      have hj1 : k + 1 ≤ j := by
        have hmem := (List.mem_filter.mp hj).1
        have := (List.mem_range'_1.mp hmem).1
        omega
      have hsub : j - k = (j - (k + 1)) + 1 := by omega
      rw [hsub, List.getD_cons_succ]
    rw [List.length_cons, List.range'_succ, List.filter_cons]
    simp only [filter_loop]
    by_cases hk : k ∈ inv
    · rw [if_pos hk, if_neg (by simp [hk]), htail]
      exact ih (k + 1)
    · rw [if_neg hk, if_pos (by simp [hk]), List.map_cons, Nat.sub_self,
        List.getD_cons_zero, htail, ih (k + 1)]

theorem range_filter_map_getD {γ : Type} {δ : Type} [Inhabited γ]
    (P : γ → Bool) (f : γ → δ) (l : List γ) :
    ∀ k : Nat,
      ((List.range' k l.length).filter (fun j => P (l.getD (j - k) default))).map
          (fun j => f (l.getD (j - k) default)) = (l.filter P).map f := by
  induction l with
  | nil => intro k; simp
  | cons a rest ih =>
    intro k
    have hpred :
        (List.range' (k + 1) rest.length).filter
            (fun j => P ((a :: rest).getD (j - k) default)) =
          (List.range' (k + 1) rest.length).filter
            (fun j => P (rest.getD (j - (k + 1)) default)) := by
      apply List.filter_congr
      intro j hj
      have hj1 : k + 1 ≤ j := (List.mem_range'_1.mp hj).1
      have hsub : j - k = (j - (k + 1)) + 1 := by omega
      rw [hsub, List.getD_cons_succ]
    have hmap :
        ∀ m : List Nat, (∀ j ∈ m, k + 1 ≤ j) →
          m.map (fun j => f ((a :: rest).getD (j - k) default)) =
            m.map (fun j => f (rest.getD (j - (k + 1)) default)) := by
      intro m hm
      apply List.map_congr_left
      intro j hj
      have hj1 : k + 1 ≤ j := hm j hj
      have hsub : j - k = (j - (k + 1)) + 1 := by omega
      rw [hsub, List.getD_cons_succ]
    have hhead : ((a :: rest).getD (k - k) default) = a := by
      rw [Nat.sub_self, List.getD_cons_zero]
    have htail2 :
        (((List.range' (k + 1) rest.length).filter
            (fun j => P ((a :: rest).getD (j - k) default))).map
          (fun j => f ((a :: rest).getD (j - k) default))) =
          (rest.filter P).map f := by
      rw [hpred,
        hmap _ (fun j hj => (List.mem_range'_1.mp ((List.mem_filter.mp hj).1)).1)]
      exact ih (k + 1)
    rw [List.length_cons, List.range'_succ, List.filter_cons]
    by_cases hPa : P a = true
    · rw [if_pos (by rw [hhead]; exact hPa), List.map_cons, hhead, htail2,
        List.filter_cons_of_pos hPa, List.map_cons]
    · rw [if_neg (by rw [hhead]; exact hPa), htail2,
        List.filter_cons_of_neg (by simpa using hPa)]

theorem map_getD_range {γ : Type} [Inhabited γ] (l : List γ) :
    (List.range l.length).map (fun j => l.getD j default) = l := by
  have h := range_filter_map_getD (fun _ => true) (fun x : γ => x) l 0
  simpa [List.range_eq_range'] using h

theorem getD_zip {txs : List Tx} {senders : List Address} {j : Nat}
    (h : txs.length = senders.length) (hj : j < txs.length) :
    (txs.zip senders).getD j default = (txs.getD j default, senders.getD j 0) := by
  have hz : j < (txs.zip senders).length := by
    rw [List.length_zip]; omega
  rw [List.getD_eq_getElem _ _ hz, List.getElem_zip, List.getD_eq_getElem _ _ hj,
    List.getD_eq_getElem _ _ (by omega : j < senders.length)]

theorem filter_invalid_txs_eq (db : StateView) (txs : List Tx) (senders : List Address)
    (bf : Nat) (h : txs.length = senders.length) :
    filter_invalid_txs db txs senders bf =
      (((List.range txs.length).filter
          (fun i => decide (i ∉ invalid_idxs db bf txs senders))).map
            (fun i => txs.getD i default),
        ((List.range txs.length).filter
          (fun i => decide (i ∉ invalid_idxs db bf txs senders))).map
            (fun i => senders.getD i 0)) := by
  unfold filter_invalid_txs
  by_cases hinv : (invalid_idxs db bf txs senders).isEmpty
  · rw [if_pos hinv]
    have hnil : invalid_idxs db bf txs senders = [] := List.isEmpty_iff.mp hinv
    have hfil : (List.range txs.length).filter
        (fun i => decide (i ∉ invalid_idxs db bf txs senders)) = List.range txs.length := by
      apply List.filter_eq_self.mpr
      intro a _
      simp [hnil]
    rw [hfil]
    have h1 : (List.range txs.length).map (fun i => txs.getD i default) = txs :=
      map_getD_range txs
    have h2 : (List.range txs.length).map (fun i => senders.getD i 0) = senders := by
      rw [h]; exact map_getD_range senders
    rw [h1, h2]
  · rw [if_neg hinv]
    have hlen : (txs.zip senders).length = txs.length := by
      rw [List.length_zip, h, min_self]
    have hloop := filter_loop_eq (invalid_idxs db bf txs senders) (txs.zip senders) 0
    simp only [List.range_eq_range'] at hloop ⊢
    rw [hloop, hlen]
    have hmem : ∀ j ∈ (List.range' 0 txs.length).filter
        (fun j => decide (j ∉ invalid_idxs db bf txs senders)), j < txs.length := by
      intro j hj
      have := (List.mem_range'_1.mp ((List.mem_filter.mp hj).1)).2
      omega
    refine Prod.ext_iff.mpr ⟨?_, ?_⟩ <;> dsimp only <;> rw [List.map_map] <;>
      apply List.map_congr_left <;> intro j hj <;>
      simp only [Function.comp_apply, Nat.sub_zero, getD_zip h (hmem j hj)]

/-! ### C1: the pre-filter preserves order and index pairing -/

/-- C1: for every state view `db`, transaction list `txs`, sender list
`senders` of equal length, and base fee, `filter_invalid_txs` returns output
lists selected at one common, strictly increasing list of input indices
(so both outputs are subsequences of the inputs, `txs[i]` stays paired with
`senders[i]`, relative order is preserved), and the outputs have equal
length. -/
theorem filter_invalid_txs_preserves_order (db : StateView) (txs : List Tx)
    (senders : List Address) (bf : Nat) (h : txs.length = senders.length) :
    ∃ idxs : List Nat,
      idxs.Pairwise (· < ·) ∧
      (∀ i ∈ idxs, i < txs.length) ∧
      (filter_invalid_txs db txs senders bf).1 = idxs.map (fun i => txs.getD i default) ∧
      (filter_invalid_txs db txs senders bf).2 = idxs.map (fun i => senders.getD i 0) ∧
      (filter_invalid_txs db txs senders bf).1.length =
        (filter_invalid_txs db txs senders bf).2.length := by
  refine ⟨(List.range txs.length).filter
      (fun i => decide (i ∉ invalid_idxs db bf txs senders)), ?_, ?_, ?_, ?_, ?_⟩
  · exact List.Pairwise.sublist (List.filter_sublist _) (List.pairwise_lt_range _)
  · intro i hi
    exact List.mem_range.mp (List.mem_filter.mp hi).1
  · rw [filter_invalid_txs_eq db txs senders bf h]
  · rw [filter_invalid_txs_eq db txs senders bf h]
  · rw [filter_invalid_txs_eq db txs senders bf h]
    simp [List.length_map]

/-- Concrete state view used by the witnesses: sender `1` exists with nonce 5
and balance 100; no other sender exists. -/
def dbW : StateView := fun a => if a = 1 then some ⟨5, 100⟩ else none

/-- Concrete transactions used by the witnesses. -/
def txsW : List Tx := [⟨5, 1, 1⟩, ⟨7, 1, 1⟩]

/-- Concrete senders used by the witnesses. -/
def sendersW : List Address := [1, 1]

theorem filter_invalid_txs_preserves_order_witness :
    txsW.length = sendersW.length ∧
    ∃ idxs : List Nat,
      idxs.Pairwise (· < ·) ∧
      (∀ i ∈ idxs, i < txsW.length) ∧
      (filter_invalid_txs dbW txsW sendersW 1).1 = idxs.map (fun i => txsW.getD i default) ∧
      (filter_invalid_txs dbW txsW sendersW 1).2 = idxs.map (fun i => sendersW.getD i 0) ∧
      (filter_invalid_txs dbW txsW sendersW 1).1.length =
        (filter_invalid_txs dbW txsW sendersW 1).2.length :=
  ⟨rfl, filter_invalid_txs_preserves_order dbW txsW sendersW 1 rfl⟩

/-! ### C2: per-sender validity is the sequential nonce/balance recurrence -/

/-- Spec-side transaction step, written after the spec's words: a transaction
is invalid iff its nonce differs from the current account nonce, or the
current balance is less than `gas_limit * (priority_fee_or_price +
base_fee_per_gas)` (plain, non-wrapping arithmetic); on a valid transaction
the balance is decremented by that product and the nonce incremented by 1. -/
def spec_tx_step (base_fee_per_gas : Nat) (tx : Tx) (account : AccountInfo) :
    Option AccountInfo :=
  if tx.nonce ≠ account.nonce then none
  else if account.balance < tx.gas_limit * (tx.priority_fee_or_price + base_fee_per_gas)
  then none
  else some ⟨account.nonce + 1,
    account.balance - tx.gas_limit * (tx.priority_fee_or_price + base_fee_per_gas)⟩

/-- Spec-side sequential pass over a sender's transaction indices, in original
index order, starting from the given account. -/
def spec_invalid_of_sender (base_fee_per_gas : Nat) (txs : List Tx) :
    AccountInfo → List Nat → List Nat
  | _, [] => []
  | account, i :: rest =>
    match spec_tx_step base_fee_per_gas (txs.getD i default) account with
    | some account1 => spec_invalid_of_sender base_fee_per_gas txs account1 rest
    | none => i :: spec_invalid_of_sender base_fee_per_gas txs account rest

/-- Value bounds guaranteed by the Rust integer types: `nonce : u64` (with
headroom for the increment), `gas_limit : u64`, `priority_fee_or_price : u128`. -/
def TxBounds (tx : Tx) : Prop :=
  tx.nonce + 1 < U64LIM ∧ tx.gas_limit < U64LIM ∧ tx.priority_fee_or_price < U128LIM

instance (tx : Tx) : Decidable (TxBounds tx) := by
  unfold TxBounds; infer_instance

theorem gas_spent_eq_of_bounds {bf : Nat} {tx : Tx} (htx : TxBounds tx)
    (hbf : bf < U64LIM) :
    gas_spent bf tx = tx.gas_limit * (tx.priority_fee_or_price + bf) := by
  obtain ⟨-, hgl, hpf⟩ := htx
  unfold gas_spent U64LIM U128LIM U256LIM at *
  have hsum : tx.priority_fee_or_price + bf < 2 ^ 129 := by
    have h1 : (2 : Nat) ^ 128 + 2 ^ 64 ≤ 2 ^ 129 := by norm_num
    omega
  have hsumlt : tx.priority_fee_or_price + bf < 2 ^ 256 := by
    have : (2 : Nat) ^ 129 ≤ 2 ^ 256 := Nat.pow_le_pow_right (by norm_num) (by norm_num)
    omega
  rw [Nat.mod_eq_of_lt hsumlt]
  have hprod : tx.gas_limit * (tx.priority_fee_or_price + bf) < 2 ^ 256 := by
    have h1 : tx.gas_limit * (tx.priority_fee_or_price + bf) < 2 ^ 64 * 2 ^ 129 :=
      Nat.mul_lt_mul_of_lt_of_le hgl (Nat.le_of_lt hsum) (by norm_num)
    have h2 : (2 : Nat) ^ 64 * 2 ^ 129 ≤ 2 ^ 256 := by
      rw [← pow_add]
      exact Nat.pow_le_pow_right (by norm_num) (by norm_num)
    omega
  exact Nat.mod_eq_of_lt hprod

theorem is_tx_valid_eq_spec {bf : Nat} {tx : Tx} (htx : TxBounds tx)
    (hbf : bf < U64LIM) (account : AccountInfo) :
    is_tx_valid bf tx account =
      match spec_tx_step bf tx account with
      | none => (false, account)
      | some a1 => (true, a1) := by
  unfold is_tx_valid spec_tx_step
  rw [gas_spent_eq_of_bounds htx hbf]
  by_cases hn : account.nonce = tx.nonce
  · rw [if_neg (show ¬account.nonce ≠ tx.nonce by omega),
      if_neg (show ¬tx.nonce ≠ account.nonce by omega)]
    by_cases hbal : account.balance < tx.gas_limit * (tx.priority_fee_or_price + bf)
    · rw [if_pos hbal, if_pos hbal]
    · rw [if_neg hbal, if_neg hbal]
      have hmod : (account.nonce + 1) % U64LIM = account.nonce + 1 :=
        Nat.mod_eq_of_lt (by have := htx.1; omega)
      rw [hmod]
  · rw [if_pos hn, if_pos (Ne.symm hn)]

theorem invalid_of_sender_eq_spec {bf : Nat} {txs : List Tx} (hbf : bf < U64LIM) :
    ∀ (idxs : List Nat) (account : AccountInfo),
      (∀ i ∈ idxs, TxBounds (txs.getD i default)) →
      invalid_of_sender bf txs account idxs =
        spec_invalid_of_sender bf txs account idxs := by
  intro idxs
  induction idxs with
  | nil => intro account _; rfl
  | cons i rest ih =>
    intro account hb
    have hbi : TxBounds (txs.getD i default) := hb i (by simp)
    have hbrest : ∀ j ∈ rest, TxBounds (txs.getD j default) := fun j hj =>
      hb j (by simp [hj])
    simp only [invalid_of_sender, spec_invalid_of_sender]
    rw [is_tx_valid_eq_spec hbi hbf account]
    cases hstep : spec_tx_step bf (txs.getD i default) account with
    | none => exact congrArg (List.cons i) (ih account hbrest)
    | some a1 => exact ih a1 hbrest

/-- C2: per-sender validity in `filter_invalid_txs` is decided sequentially,
in original (ascending) index order, starting from the on-chain account: if
the sender is absent from `db` the whole bucket is invalid; otherwise, under
the value bounds imposed by the Rust integer types (so the 256-bit arithmetic
cannot wrap), the computed invalid indices are exactly those of the spec's
sequential recurrence `spec_invalid_of_sender`. -/
theorem filter_invalid_txs_per_sender_sequential (db : StateView) (bf : Nat)
    (txs : List Tx) (senders : List Address) (s : Address) :
    (bucketOf senders s).Pairwise (· < ·) ∧
    (db s = none → per_sender_invalid db bf txs senders s = bucketOf senders s) ∧
    (∀ account, db s = some account → bf < U64LIM →
      (∀ i ∈ bucketOf senders s, TxBounds (txs.getD i default)) →
      per_sender_invalid db bf txs senders s =
        spec_invalid_of_sender bf txs account (bucketOf senders s)) := by
  refine ⟨bucketOf_pairwise senders s, ?_, ?_⟩
  · intro hnone
    unfold per_sender_invalid
    rw [hnone]
  · intro account hsome hbf hb
    unfold per_sender_invalid
    rw [hsome]
    exact invalid_of_sender_eq_spec hbf (bucketOf senders s) account hb

theorem filter_invalid_txs_per_sender_sequential_witness :
    (dbW 1 = some ⟨5, 100⟩ ∧ (1 : Nat) < U64LIM ∧
      (∀ i ∈ bucketOf sendersW 1, TxBounds (txsW.getD i default))) ∧
    per_sender_invalid dbW 1 txsW sendersW 1 =
      spec_invalid_of_sender 1 txsW ⟨5, 100⟩ (bucketOf sendersW 1) :=
  ⟨⟨rfl, by norm_num [U64LIM], by decide⟩,
    (filter_invalid_txs_per_sender_sequential dbW 1 txsW sendersW 1).2.2
      ⟨5, 100⟩ rfl (by norm_num [U64LIM]) (by decide)⟩

/-! ### C10: the result does not depend on the sender iteration order -/

/-- The filter with the parallel fan-out over senders replaced by an explicit
iteration order: the Rust `into_par_iter().flat_map(..).collect::<HashSet<_>>()`
produces the invalid set in some arbitrary sender order; this definition makes
that order a parameter. -/
def filter_with_order (db : StateView) (txs : List Tx) (senders : List Address)
    (base_fee_per_gas : Nat) (order : List Address) : List Tx × List Address :=
  let inv := invalid_idxs_with db base_fee_per_gas txs senders order
  if inv.isEmpty then (txs, senders)
  else
    let kept := filter_loop inv 0 (txs.zip senders)
    (kept.map Prod.fst, kept.map Prod.snd)

theorem filter_loop_congr {inv1 inv2 : List Nat}
    (h : ∀ i, i ∈ inv1 ↔ i ∈ inv2) (l : List (Tx × Address)) :
    ∀ k, filter_loop inv1 k l = filter_loop inv2 k l := by
  induction l with
  | nil => intro k; rfl
  | cons p rest ih =>
    intro k
    simp only [filter_loop]
    by_cases hk : k ∈ inv1
    · rw [if_pos hk, if_pos ((h k).mp hk)]
      exact ih (k + 1)
    · rw [if_neg hk, if_neg (fun hx => hk ((h k).mpr hx)), ih (k + 1)]

/-- C10: `filter_invalid_txs` is deterministic despite the parallel fan-out
over senders: evaluating the per-sender buckets in any order (any permutation
of the distinct senders) yields the same output, because each bucket is
processed independently in ascending index order and the final pass only
tests membership in the collected invalid-index set. -/
theorem filter_invalid_txs_order_insensitive (db : StateView) (txs : List Tx)
    (senders : List Address) (bf : Nat) (order : List Address)
    (hperm : order.Perm senders.dedup) :
    filter_with_order db txs senders bf order = filter_invalid_txs db txs senders bf := by
  have hmem : ∀ i, i ∈ invalid_idxs_with db bf txs senders order ↔
      i ∈ invalid_idxs db bf txs senders := by
    intro i
    rw [mem_invalid_idxs_with]
    unfold invalid_idxs
    rw [mem_invalid_idxs_with]
    constructor
    · rintro ⟨s, hs, hper⟩
      exact ⟨s, hperm.mem_iff.mp hs, hper⟩
    · rintro ⟨s, hs, hper⟩
      exact ⟨s, hperm.mem_iff.mpr hs, hper⟩
  have hnil : (invalid_idxs_with db bf txs senders order = []) ↔
      (invalid_idxs db bf txs senders = []) := by
    rw [List.eq_nil_iff_forall_not_mem, List.eq_nil_iff_forall_not_mem]
    constructor
    · intro h a ha
      exact h a ((hmem a).mpr ha)
    · intro h a ha
      exact h a ((hmem a).mp ha)
  unfold filter_with_order filter_invalid_txs
  by_cases hB : (invalid_idxs db bf txs senders).isEmpty
  · rw [if_pos hB, if_pos (List.isEmpty_iff.mpr (hnil.mpr (List.isEmpty_iff.mp hB)))]
  · rw [if_neg hB,
      if_neg (fun hA => hB (List.isEmpty_iff.mpr (hnil.mp (List.isEmpty_iff.mp hA)))),
      filter_loop_congr hmem (txs.zip senders) 0]

/-- Concrete two-sender state view used by the witnesses. -/
def db2W : StateView := fun a =>
  if a = 1 then some ⟨5, 100⟩ else if a = 2 then some ⟨0, 10⟩ else none

/-- Concrete transactions over two senders used by the witnesses. -/
def txs2W : List Tx := [⟨5, 1, 1⟩, ⟨0, 3, 1⟩, ⟨6, 1, 1⟩]

/-- Concrete interleaved senders used by the witnesses. -/
def senders2W : List Address := [1, 2, 1]

theorem filter_invalid_txs_order_insensitive_witness :
    ([2, 1] : List Address).Perm senders2W.dedup ∧
    filter_with_order db2W txs2W senders2W 1 [2, 1] =
      filter_invalid_txs db2W txs2W senders2W 1 :=
  ⟨by decide, filter_invalid_txs_order_insensitive db2W txs2W senders2W 1 [2, 1] (by decide)⟩

/-! ### C9: idempotence of the pre-filter -/

/-- The transactions of one bucket judged valid, in order, threading the
account exactly as the sequential pass does. -/
def valid_txs_from (bf : Nat) : AccountInfo → List Tx → List Tx
  | _, [] => []
  | account, tx :: rest =>
    match is_tx_valid bf tx account with
    | (true, a1) => tx :: valid_txs_from bf a1 rest
    | (false, _) => valid_txs_from bf account rest

/-- Whether every transaction of a list is judged valid by the sequential
pass starting from the given account. -/
def all_valid_from (bf : Nat) : AccountInfo → List Tx → Bool
  | _, [] => true
  | account, tx :: rest =>
    match is_tx_valid bf tx account with
    | (true, a1) => all_valid_from bf a1 rest
    | (false, _) => false

theorem is_tx_valid_false_acc {bf : Nat} {tx : Tx} {account a1 : AccountInfo}
    (h : is_tx_valid bf tx account = (false, a1)) : a1 = account := by
  unfold is_tx_valid at h
  by_cases h1 : account.nonce ≠ tx.nonce
  · rw [if_pos h1] at h
    exact (Prod.ext_iff.mp h).2.symm
  · rw [if_neg h1] at h
    by_cases h2 : account.balance < gas_spent bf tx
    · rw [if_pos h2] at h
      exact (Prod.ext_iff.mp h).2.symm
    · rw [if_neg h2] at h
      exact absurd (Prod.ext_iff.mp h).1 (by simp)

theorem all_valid_from_valid_txs (bf : Nat) :
    ∀ (l : List Tx) (account : AccountInfo),
      all_valid_from bf account (valid_txs_from bf account l) = true := by
  intro l
  induction l with
  | nil => intro account; rfl
  | cons tx rest ih =>
    intro account
    rcases h : is_tx_valid bf tx account with ⟨ok, a1⟩
    cases ok
    · have ha : a1 = account := is_tx_valid_false_acc h
      simp only [valid_txs_from, h]
      exact ih account
    · simp only [valid_txs_from, all_valid_from, h]
      exact ih a1

theorem invalid_of_sender_nil_iff {bf : Nat} {txs : List Tx} :
    ∀ (idxs : List Nat) (account : AccountInfo),
      invalid_of_sender bf txs account idxs = [] ↔
        all_valid_from bf account (idxs.map (fun i => txs.getD i default)) = true := by
  intro idxs
  induction idxs with
  | nil => intro account; simp [invalid_of_sender, all_valid_from]
  | cons i rest ih =>
    intro account
    rcases h : is_tx_valid bf (txs.getD i default) account with ⟨ok, a1⟩
    cases ok
    · simp only [invalid_of_sender, h, List.map_cons, all_valid_from]
      constructor
      · intro hx
        exact absurd hx (List.cons_ne_nil i _)
      · intro hx
        exact absurd hx (by simp)
    · simp only [invalid_of_sender, h, List.map_cons, all_valid_from]
      exact ih a1

theorem filter_not_invalid_eq_valid_txs {bf : Nat} {txs : List Tx} :
    ∀ (idxs : List Nat) (account : AccountInfo), idxs.Nodup →
      ((idxs.filter
          (fun i => decide (i ∉ invalid_of_sender bf txs account idxs))).map
        (fun i => txs.getD i default)) =
        valid_txs_from bf account (idxs.map (fun i => txs.getD i default)) := by
  intro idxs
  induction idxs with
  | nil => intro account _; rfl
  | cons i rest ih =>
    intro account hnd
    have hinotin : i ∉ rest := (List.nodup_cons.mp hnd).1
    have hndrest : rest.Nodup := (List.nodup_cons.mp hnd).2
    rcases h : is_tx_valid bf (txs.getD i default) account with ⟨ok, a1⟩
    cases ok
    · -- invalid head: the head index joins the invalid set and is dropped
      have ha : a1 = account := is_tx_valid_false_acc h
      subst ha
      simp only [invalid_of_sender, h, List.map_cons, valid_txs_from]
      rw [List.filter_cons]
      rw [if_neg (by simp)]
      have hcongr :
          rest.filter
              (fun j => decide (j ∉ i :: invalid_of_sender bf txs a1 rest)) =
            rest.filter
              (fun j => decide (j ∉ invalid_of_sender bf txs a1 rest)) := by
        apply List.filter_congr
        intro j hj
        have hji : j ≠ i := fun he => hinotin (he ▸ hj)
        simp [hji]
      rw [hcongr]
      exact ih a1 hndrest
    · -- valid head: the head index survives and the account advances
      simp only [invalid_of_sender, h, List.map_cons, valid_txs_from]
      rw [List.filter_cons]
      have hsub := invalid_of_sender_sublist bf txs rest a1
      have hnotin : i ∉ invalid_of_sender bf txs a1 rest := fun hx =>
        hinotin (hsub.mem hx)
      rw [if_pos (by simpa using hnotin), List.map_cons]
      rw [ih a1 hndrest]

/-- C9: `filter_invalid_txs` is idempotent: applying the filter to its own
output against the same state view yields that output unchanged; in
particular, when no index is invalid the function returns the input lists
themselves. -/
theorem filter_invalid_txs_idempotent (db : StateView) (txs : List Tx)
    (senders : List Address) (bf : Nat) (h : txs.length = senders.length) :
    (invalid_idxs db bf txs senders = [] →
      filter_invalid_txs db txs senders bf = (txs, senders)) ∧
    filter_invalid_txs db (filter_invalid_txs db txs senders bf).1
        (filter_invalid_txs db txs senders bf).2 bf =
      filter_invalid_txs db txs senders bf := by
  constructor
  · intro hnil
    simp [filter_invalid_txs, hnil]
  have hout := filter_invalid_txs_eq db txs senders bf h
  set inv := invalid_idxs db bf txs senders with hinvdef
  set keep := (List.range txs.length).filter (fun i => decide (i ∉ inv)) with hkeepdef
  set t2 := keep.map (fun i => txs.getD i default) with ht2
  set s2 := keep.map (fun i => senders.getD i 0) with hs2
  rw [hout]
  dsimp only
  have hinv2 : invalid_idxs db bf t2 s2 = [] := by
    rw [List.eq_nil_iff_forall_not_mem]
    intro j hj
    obtain ⟨hjlt, hper⟩ := mem_invalid_idxs.mp hj
    have hkeeplen : j < keep.length := by
      rw [hs2, List.length_map] at hjlt
      exact hjlt
    set i0 := keep.getD j default with hi0def
    have hkeepj : i0 = keep[j] := by
      rw [hi0def, List.getD_eq_getElem keep default hkeeplen]
    have hi0mem : i0 ∈ keep := by
      rw [hkeepj]
      exact List.getElem_mem hkeeplen
    rw [hkeepdef] at hi0mem
    obtain ⟨hi0range, hi0dec⟩ := List.mem_filter.mp hi0mem
    have hi0lt : i0 < txs.length := List.mem_range.mp hi0range
    have hi0notinv : i0 ∉ inv := by simpa using hi0dec
    have hsval : s2.getD j 0 = senders.getD i0 0 := by
      rw [hs2, List.getD_eq_getElem _ _ (by rw [List.length_map]; exact hkeeplen),
        List.getElem_map, ← hkeepj]
    rw [hsval] at hper
    set sv := senders.getD i0 0 with hsv
    cases hdb : db sv with
    | none =>
      have hbucket : i0 ∈ bucketOf senders sv :=
        mem_bucketOf.mpr ⟨by omega, hsv.symm⟩
      have hi0inv : i0 ∈ inv := by
        rw [hinvdef]
        apply mem_invalid_idxs.mpr
        refine ⟨by omega, ?_⟩
        rw [← hsv]
        unfold per_sender_invalid
        rw [hdb]
        exact hbucket
      exact hi0notinv hi0inv
    | some account =>
      have hchain : ((bucketOf s2 sv).map (fun i => t2.getD i default)) =
          valid_txs_from bf account
            ((bucketOf senders sv).map (fun i => txs.getD i default)) := by
        have hlen2 : s2.length = keep.length := by
          rw [hs2, List.length_map]
        have hb1 : bucketOf s2 sv =
            (List.range keep.length).filter
              (fun jj => decide (senders.getD (keep.getD jj default) 0 = sv)) := by
          unfold bucketOf
          rw [hlen2]
          apply List.filter_congr
          intro jj hjj
          have hjjlt : jj < keep.length := List.mem_range.mp hjj
          have hget : s2.getD jj 0 = senders.getD (keep.getD jj default) 0 := by
            rw [hs2, List.getD_eq_getElem _ _ (by rw [List.length_map]; exact hjjlt),
              List.getElem_map, List.getD_eq_getElem keep default hjjlt]
          rw [hget]
        have hb2 : (bucketOf s2 sv).map (fun i => t2.getD i default) =
            ((List.range keep.length).filter
              (fun jj => decide (senders.getD (keep.getD jj default) 0 = sv))).map
              (fun jj => txs.getD (keep.getD jj default) default) := by
          rw [hb1]
          apply List.map_congr_left
          intro jj hjj
          have hjjlt : jj < keep.length :=
            List.mem_range.mp (List.mem_filter.mp hjj).1
          rw [ht2, List.getD_eq_getElem _ _ (by rw [List.length_map]; exact hjjlt),
            List.getElem_map, List.getD_eq_getElem keep default hjjlt]
        have hb3 := range_filter_map_getD
          (fun i => decide (senders.getD i 0 = sv))
          (fun i => txs.getD i default) keep 0
        simp only [Nat.sub_zero, ← List.range_eq_range'] at hb3
        have hb4 : keep.filter (fun i => decide (senders.getD i 0 = sv)) =
            (bucketOf senders sv).filter (fun i => decide (i ∉ inv)) := by
          rw [hkeepdef, List.filter_comm]
          unfold bucketOf
          rw [h]
        have hb5 : (bucketOf senders sv).filter (fun i => decide (i ∉ inv)) =
            (bucketOf senders sv).filter
              (fun i => decide
                (i ∉ invalid_of_sender bf txs account (bucketOf senders sv))) := by
          apply List.filter_congr
          intro i hi
          obtain ⟨hilt, hieq⟩ := mem_bucketOf.mp hi
          have hiff : i ∈ inv ↔
              i ∈ invalid_of_sender bf txs account (bucketOf senders sv) := by
            rw [hinvdef, mem_invalid_idxs]
            constructor
            · rintro ⟨-, hp⟩
              rw [hieq] at hp
              unfold per_sender_invalid at hp
              rw [hdb] at hp
              exact hp
            · intro hp
              refine ⟨hilt, ?_⟩
              rw [hieq]
              unfold per_sender_invalid
              rw [hdb]
              exact hp
          simp only [decide_eq_decide]
          exact not_congr hiff
        have hb6 := @filter_not_invalid_eq_valid_txs bf txs
          (bucketOf senders sv) account (bucketOf_nodup senders sv)
        rw [hb2, hb3, hb4, hb5, hb6]
      have hper2 : per_sender_invalid db bf t2 s2 sv = [] := by
        unfold per_sender_invalid
        rw [hdb, invalid_of_sender_nil_iff, hchain]
        exact all_valid_from_valid_txs bf _ account
      rw [hper2] at hper
      exact absurd hper (List.not_mem_nil j)
  simp [filter_invalid_txs, hinv2]

theorem filter_invalid_txs_idempotent_witness :
    txs2W.length = senders2W.length ∧
    ((invalid_idxs db2W 1 txs2W senders2W = [] →
        filter_invalid_txs db2W txs2W senders2W 1 = (txs2W, senders2W)) ∧
      filter_invalid_txs db2W (filter_invalid_txs db2W txs2W senders2W 1).1
          (filter_invalid_txs db2W txs2W senders2W 1).2 1 =
        filter_invalid_txs db2W txs2W senders2W 1) :=
  ⟨rfl, filter_invalid_txs_idempotent db2W txs2W senders2W 1 rfl⟩

/-! ### The verification handshake and the per-block pipeline

The keyed rendezvous `Channel` lives in the `channel` module, which is not
among the published sources; per its doc comments in `lib.rs` and the spec,
every `wait`/`notify` returns `None` exactly when the channel has been
closed.  The pipeline is therefore modelled over explicit channel-operation
results: each `Option` field below is the value the corresponding
`wait`/`notify`/`send` call resolves to (`none` = the closed sentinel). -/

/-- Possible outcomes of `Core::verify_executed_block_hash`. -/
inductive VerifyRes
  | closed
  | assertFailed (got expected : Nat)
  | ok
deriving DecidableEq, Repr

/-- `Core::verify_executed_block_hash`: publish the executed block hash
(`notify` on `executed_block_hash_tx`), wait for the verified hash on
`verified_block_hash_rx`, and `assert_eq!` the two.  `nr` is the notify
result, `wr` the wait result (`none` = channel closed, early `None` return
via `?`); `submitted` is the hash the pipeline sealed. -/
def verify_executed_block_hash (nr : Option Unit) (submitted : Nat)
    (wr : Option Nat) : VerifyRes :=
  match nr with
  | none => .closed
  | some _ =>
    match wr with
    | none => .closed
    | some got => if submitted = got then .ok else .assertFailed got submitted

/-- The externally visible steps of `Core::process`, in source order. -/
inductive PEvent
  | insertBlockId
  | waitExecBarrier
  | execBlock
  | insertBundle
  | notifyExecBarrier
  | calcRoots
  | waitMerkBarrier
  | stateRootCall
  | notifyMerkBarrier
  | writeStateRoot
  | waitSealBarrier
  | writeParentHash
  | sealBlock
  | notifySealBarrier
  | verifyHandshake
  | waitMcBarrier
  | sendMakeCanonical
  | awaitHostReply
  | updateCanonical
  | notifyMcBarrier
deriving DecidableEq, BEq, Repr

/-- The results each suspending or fallible operation of `Core::process`
resolves to (`none` models the closed sentinel, on which the source calls
`Option::unwrap`, respectively a failed `Result` for the storage call and a
dropped reply channel for the host handshake). -/
structure ProcChans where
  execWaitRes : Option Unit
  execNotifyRes : Option Unit
  merkWaitRes : Option Unit
  stateRootRes : Option Unit
  merkNotifyRes : Option Unit
  sealWaitRes : Option Unit
  sealNotifyRes : Option Unit
  executedNotifyRes : Option Unit
  verifiedWaitRes : Option Nat
  sealedHash : Nat
  mcWaitRes : Option Unit
  eventSendRes : Option Unit
  hostReplyRes : Option Unit
  mcNotifyRes : Option Unit

/-- Outcome of one run of `Core::process`: either the task runs to the end of
the function, or it panics (all the `unwrap`/`assert_eq` calls), in both
cases with the trace of steps performed so far. -/
inductive ProcResult
  | finished (trace : List PEvent)
  | crashed (trace : List PEvent)
deriving DecidableEq, Repr

/-- `Core::process` (source lines 139-228) as a trace function over the
channel-operation results: straight-line code whose only branching is whether
each `unwrap` / `assert_eq` succeeds. -/
def processModel (c : ProcChans) : ProcResult :=
  let t1 := [PEvent.insertBlockId, PEvent.waitExecBarrier]
  match c.execWaitRes with
  | none => .crashed t1
  | some _ =>
  let t2 := t1 ++ [PEvent.execBlock, PEvent.insertBundle, PEvent.notifyExecBarrier]
  match c.execNotifyRes with
  | none => .crashed t2
  | some _ =>
  let t3 := t2 ++ [PEvent.calcRoots, PEvent.waitMerkBarrier]
  match c.merkWaitRes with
  | none => .crashed t3
  | some _ =>
  let t4 := t3 ++ [PEvent.stateRootCall]
  match c.stateRootRes with
  | none => .crashed t4
  | some _ =>
  let t5 := t4 ++ [PEvent.notifyMerkBarrier]
  match c.merkNotifyRes with
  | none => .crashed t5
  | some _ =>
  let t6 := t5 ++ [PEvent.writeStateRoot, PEvent.waitSealBarrier]
  match c.sealWaitRes with
  | none => .crashed t6
  | some _ =>
  let t7 := t6 ++ [PEvent.writeParentHash, PEvent.sealBlock, PEvent.notifySealBarrier]
  match c.sealNotifyRes with
  | none => .crashed t7
  | some _ =>
  let t8 := t7 ++ [PEvent.verifyHandshake]
  match verify_executed_block_hash c.executedNotifyRes c.sealedHash c.verifiedWaitRes with
  | .closed => .crashed t8
  | .assertFailed _ _ => .crashed t8
  | .ok =>
  let t9 := t8 ++ [PEvent.waitMcBarrier]
  match c.mcWaitRes with
  | none => .crashed t9
  | some _ =>
  let t10 := t9 ++ [PEvent.sendMakeCanonical]
  match c.eventSendRes with
  | none => .crashed t10
  | some _ =>
  let t11 := t10 ++ [PEvent.awaitHostReply]
  match c.hostReplyRes with
  | none => .crashed t11
  | some _ =>
  let t12 := t11 ++ [PEvent.updateCanonical, PEvent.notifyMcBarrier]
  match c.mcNotifyRes with
  | none => .crashed t12
  | some _ => .finished t12

/-- The full trace of a successful run of `Core::process`. -/
def procHappyTrace : List PEvent :=
  [PEvent.insertBlockId, PEvent.waitExecBarrier, PEvent.execBlock,
    PEvent.insertBundle, PEvent.notifyExecBarrier, PEvent.calcRoots,
    PEvent.waitMerkBarrier, PEvent.stateRootCall, PEvent.notifyMerkBarrier,
    PEvent.writeStateRoot, PEvent.waitSealBarrier, PEvent.writeParentHash,
    PEvent.sealBlock, PEvent.notifySealBarrier, PEvent.verifyHandshake,
    PEvent.waitMcBarrier, PEvent.sendMakeCanonical, PEvent.awaitHostReply,
    PEvent.updateCanonical, PEvent.notifyMcBarrier]

theorem processModel_finished_elim {c : ProcChans} {tr : List PEvent}
    (h : processModel c = ProcResult.finished tr) :
    tr = procHappyTrace ∧
    c.execWaitRes.isSome ∧ c.execNotifyRes.isSome ∧ c.merkWaitRes.isSome ∧
    c.stateRootRes.isSome ∧ c.merkNotifyRes.isSome ∧ c.sealWaitRes.isSome ∧
    c.sealNotifyRes.isSome ∧ c.executedNotifyRes.isSome ∧
    c.verifiedWaitRes = some c.sealedHash ∧ c.mcWaitRes.isSome ∧
    c.eventSendRes.isSome ∧ c.hostReplyRes.isSome ∧ c.mcNotifyRes.isSome := by
  obtain ⟨f1, f2, f3, f4, f5, f6, f7, f8, f9, hs, f10, f11, f12, f13⟩ := c
  cases f1 with
  | none => simp [processModel] at h
  | some u1 =>
  cases f2 with
  | none => simp [processModel] at h
  | some u2 =>
  cases f3 with
  | none => simp [processModel] at h
  | some u3 =>
  cases f4 with
  | none => simp [processModel] at h
  | some u4 =>
  cases f5 with
  | none => simp [processModel] at h
  | some u5 =>
  cases f6 with
  | none => simp [processModel] at h
  | some u6 =>
  cases f7 with
  | none => simp [processModel] at h
  | some u7 =>
  cases f8 with
  | none => simp [processModel, verify_executed_block_hash] at h
  | some u8 =>
  cases f9 with
  | none => simp [processModel, verify_executed_block_hash] at h
  | some got =>
  by_cases hv : hs = got
  · subst hv
    cases f10 with
    | none => simp [processModel, verify_executed_block_hash] at h
    | some u10 =>
    cases f11 with
    | none => simp [processModel, verify_executed_block_hash] at h
    | some u11 =>
    cases f12 with
    | none => simp [processModel, verify_executed_block_hash] at h
    | some u12 =>
    cases f13 with
    | none => simp [processModel, verify_executed_block_hash] at h
    | some u13 =>
      simp only [processModel, verify_executed_block_hash, if_pos rfl] at h
      cases h
      simp [procHappyTrace]
  · simp [processModel, verify_executed_block_hash, hv] at h

/-! ### C3: the verified hash equals the submitted hash, else fatal assert -/

/-- C3: for every completed verification handshake the hash delivered by the
Coordinator equals the hash the pipeline submitted for that block: `ok`
forces the delivered value to be the submitted one; a differing delivered
hash makes `verify_executed_block_hash` fail its `assert_eq` (modelled as
`assertFailed`, on which `Core::process` crashes); and whenever
`Core::process` finishes, the delivered hash was the sealed hash. -/
theorem verify_executed_block_hash_matches :
    (∀ (nr : Option Unit) (submitted : Nat) (wr : Option Nat),
      verify_executed_block_hash nr submitted wr = VerifyRes.ok →
        wr = some submitted) ∧
    (∀ (submitted got : Nat), got ≠ submitted →
      verify_executed_block_hash (some ()) submitted (some got) =
        VerifyRes.assertFailed got submitted) ∧
    (∀ (c : ProcChans) (tr : List PEvent),
      processModel c = ProcResult.finished tr →
        c.verifiedWaitRes = some c.sealedHash) := by
  refine ⟨?_, ?_, ?_⟩
  · intro nr submitted wr hok
    cases nr with
    | none => simp [verify_executed_block_hash] at hok
    | some u =>
      cases wr with
      | none => simp [verify_executed_block_hash] at hok
      | some got =>
        by_cases hv : submitted = got
        · rw [hv]
        · simp [verify_executed_block_hash, hv] at hok
  · intro submitted got hne
    show (if submitted = got then VerifyRes.ok
      else VerifyRes.assertFailed got submitted) = VerifyRes.assertFailed got submitted
    rw [if_neg (fun he => hne he.symm)]
  · intro c tr h
    exact (processModel_finished_elim h).2.2.2.2.2.2.2.2.2.1

theorem verify_executed_block_hash_matches_witness :
    (7 : Nat) ≠ 5 ∧
    verify_executed_block_hash (some ()) 5 (some 7) = VerifyRes.assertFailed 7 5 :=
  ⟨by decide, verify_executed_block_hash_matches.2.1 5 7 (by decide)⟩

/-! ### C5 and C6: crash behaviour and stage-3 ordering of `Core::process` -/

/-- Channel results of a run in which every operation succeeds. -/
def happyChans : ProcChans :=
  ⟨some (), some (), some (), some (), some (), some (), some (), some (),
    some 42, 42, some (), some (), some (), some ()⟩

/-- Channel results of a run whose first barrier wait resolves to the closed
sentinel. -/
def closedExecChans : ProcChans :=
  ⟨none, some (), some (), some (), some (), some (), some (), some (),
    some 42, 42, some (), some (), some (), some ()⟩

/-- Channel results of a run whose final barrier notify resolves to the
closed sentinel. -/
def closedMcChans : ProcChans :=
  ⟨some (), some (), some (), some (), some (), some (), some (), some (),
    some 42, 42, some (), some (), some (), none⟩

/-- C5 counterexample: when `execute_block_barrier.wait` resolves to the
closed sentinel, `Core::process` does not terminate cleanly: the `unwrap` of
the sentinel panics, so the run crashes and no finishing trace exists. -/
theorem closed_barrier_crashes_counterexample :
    processModel closedExecChans =
      ProcResult.crashed [PEvent.insertBlockId, PEvent.waitExecBarrier] ∧
    ∀ tr : List PEvent, processModel closedExecChans ≠ ProcResult.finished tr := by
  have h0 : processModel closedExecChans =
      ProcResult.crashed [PEvent.insertBlockId, PEvent.waitExecBarrier] := rfl
  refine ⟨h0, ?_⟩
  intro tr h
  exact ProcResult.noConfusion (h0.symm.trans h)

/-- C5 (amended): an in-flight per-block task whose barrier wait, barrier
notify or handshake operation resolves to the closed sentinel panics (the
source calls `Option::unwrap` on the sentinel), so the task unwinds by panic
instead of terminating cleanly. -/
theorem closed_barrier_causes_crash (c : ProcChans)
    (h : c.execWaitRes = none ∨ c.execNotifyRes = none ∨ c.merkWaitRes = none ∨
      c.merkNotifyRes = none ∨ c.sealWaitRes = none ∨ c.sealNotifyRes = none ∨
      c.executedNotifyRes = none ∨ c.verifiedWaitRes = none ∨
      c.mcWaitRes = none ∨ c.mcNotifyRes = none) :
    ∃ tr, processModel c = ProcResult.crashed tr := by
  cases hres : processModel c with
  | crashed tr => exact ⟨tr, rfl⟩
  | finished tr =>
    exfalso
    have he := processModel_finished_elim hres
    rcases h with h | h | h | h | h | h | h | h | h | h
    · have hx := he.2.1
      rw [h] at hx
      simp at hx
    · have hx := he.2.2.1
      rw [h] at hx
      simp at hx
    · have hx := he.2.2.2.1
      rw [h] at hx
      simp at hx
    · have hx := he.2.2.2.2.2.1
      rw [h] at hx
      simp at hx
    · have hx := he.2.2.2.2.2.2.1
      rw [h] at hx
      simp at hx
    · have hx := he.2.2.2.2.2.2.2.1
      rw [h] at hx
      simp at hx
    · have hx := he.2.2.2.2.2.2.2.2.1
      rw [h] at hx
      simp at hx
    · have hx := he.2.2.2.2.2.2.2.2.2.1
      rw [h] at hx
      simp at hx
    · have hx := he.2.2.2.2.2.2.2.2.2.2.1
      rw [h] at hx
      simp at hx
    · have hx := he.2.2.2.2.2.2.2.2.2.2.2.2.2
      rw [h] at hx
      simp at hx

theorem closed_barrier_causes_crash_witness :
    ∃ tr, processModel closedMcChans = ProcResult.crashed tr :=
  closed_barrier_causes_crash closedMcChans
    (Or.inr (Or.inr (Or.inr (Or.inr (Or.inr (Or.inr (Or.inr (Or.inr
      (Or.inr rfl)))))))))

/-- C6 counterexample: in a fully successful run of `Core::process`, the
write of the computed state root into the header does not precede the
`merklize_barrier` notify: the source notifies the barrier (line 171) before
assigning `block.header.state_root` (line 178). -/
theorem state_root_write_after_notify_counterexample :
    processModel happyChans = ProcResult.finished procHappyTrace ∧
    ¬(procHappyTrace.indexOf PEvent.writeStateRoot <
        procHappyTrace.indexOf PEvent.notifyMerkBarrier) := by
  exact ⟨rfl, by decide⟩

/-- C6 (amended): in stage 3 for block N, after `state_root_with_updates(N)`
returns, `merklize_barrier` is notified for N and only then is the computed
state root written into the header's `state_root` field (the notify precedes
the header update). -/
theorem merklize_notify_precedes_state_root_write (c : ProcChans)
    (tr : List PEvent) (h : processModel c = ProcResult.finished tr) :
    tr.indexOf PEvent.stateRootCall < tr.indexOf PEvent.notifyMerkBarrier ∧
    tr.indexOf PEvent.notifyMerkBarrier < tr.indexOf PEvent.writeStateRoot := by
  rw [(processModel_finished_elim h).1]
  decide

theorem merklize_notify_precedes_state_root_write_witness :
    procHappyTrace.indexOf PEvent.stateRootCall <
      procHappyTrace.indexOf PEvent.notifyMerkBarrier ∧
    procHappyTrace.indexOf PEvent.notifyMerkBarrier <
      procHappyTrace.indexOf PEvent.writeStateRoot :=
  merklize_notify_precedes_state_root_write happyChans procHappyTrace rfl

/-! ### C7: shutdown closes exactly the channels the service owns -/

/-- The channels shared between the service, its tasks and the Coordinator. -/
inductive ChanId
  | executedBlockHashTx
  | verifiedBlockHashRx
  | executeBlockBarrier
  | merklizeBarrier
  | sealBarrier
  | makeCanonicalBarrier
deriving DecidableEq, Repr

/-- Result of `PipeExecService::run`: either the
`assert_eq!(ordered_block.number, latest_block_number + 1)` fails, or the
ingress closes and the loop returns, having spawned one task per ordered
block and closed the listed channels. -/
inductive RunResult
  | assertFailed (got expected : Nat)
  | returned (spawned : List Nat) (closed : List ChanId)
deriving DecidableEq, Repr

/-- The dispatch loop of `PipeExecService::run` (source lines 109-132) over a
finite ingress sequence of ordered-block numbers: for each received block,
assert its number is `latest + 1`, update `latest` and spawn the per-block
task; when the ingress is closed (the producer dropped — the list is
exhausted), close `executed_block_hash_tx`, `execute_block_barrier`,
`merklize_barrier` and `make_canonical_barrier`, and return. -/
def runLoop (latest : Nat) (spawned : List Nat) : List Nat → RunResult
  | [] =>
    .returned spawned.reverse
      [ChanId.executedBlockHashTx, ChanId.executeBlockBarrier,
        ChanId.merklizeBarrier, ChanId.makeCanonicalBarrier]
  | n :: rest =>
    if n = latest + 1 then runLoop n (n :: spawned) rest
    else .assertFailed n (latest + 1)

/-- C7: when the ingress queue is closed, the dispatch loop closes exactly
`executed_block_hash_tx`, `execute_block_barrier`, `merklize_barrier` and
`make_canonical_barrier`; it leaves `seal_barrier` and
`verified_block_hash_rx` unclosed, and then returns (having spawned exactly
the ingress blocks, in order). -/
theorem shutdown_closes_exact_channels (latest : Nat) (ingress : List Nat)
    (spawned0 spawned : List Nat) (closed : List ChanId)
    (h : runLoop latest spawned0 ingress = RunResult.returned spawned closed) :
    closed = [ChanId.executedBlockHashTx, ChanId.executeBlockBarrier,
      ChanId.merklizeBarrier, ChanId.makeCanonicalBarrier] ∧
    ChanId.sealBarrier ∉ closed ∧ ChanId.verifiedBlockHashRx ∉ closed ∧
    spawned = spawned0.reverse ++ ingress := by
  induction ingress generalizing latest spawned0 with
  | nil =>
    simp only [runLoop] at h
    cases h
    refine ⟨rfl, by decide, by decide, by simp⟩
  | cons n rest ih =>
    simp only [runLoop] at h
    by_cases hn : n = latest + 1
    · rw [if_pos hn] at h
      obtain ⟨h1, h2, h3, h4⟩ := ih n (n :: spawned0) h
      refine ⟨h1, h2, h3, ?_⟩
      rw [h4, List.reverse_cons, List.append_assoc]
      simp
    · rw [if_neg hn] at h
      simp at h

theorem shutdown_closes_exact_channels_witness :
    ([ChanId.executedBlockHashTx, ChanId.executeBlockBarrier,
        ChanId.merklizeBarrier, ChanId.makeCanonicalBarrier] : List ChanId) =
      [ChanId.executedBlockHashTx, ChanId.executeBlockBarrier,
        ChanId.merklizeBarrier, ChanId.makeCanonicalBarrier] ∧
    ChanId.sealBarrier ∉ ([ChanId.executedBlockHashTx, ChanId.executeBlockBarrier,
        ChanId.merklizeBarrier, ChanId.makeCanonicalBarrier] : List ChanId) ∧
    ChanId.verifiedBlockHashRx ∉ ([ChanId.executedBlockHashTx,
        ChanId.executeBlockBarrier, ChanId.merklizeBarrier,
        ChanId.makeCanonicalBarrier] : List ChanId) ∧
    ([11, 12] : List Nat) = ([] : List Nat).reverse ++ [11, 12] :=
  shutdown_closes_exact_channels 10 [11, 12] [] [11, 12]
    [ChanId.executedBlockHashTx, ChanId.executeBlockBarrier,
      ChanId.merklizeBarrier, ChanId.makeCanonicalBarrier] rfl

/-! ### C8: the header skeleton built in stage 1 -/

/-- The header fields `execute_ordered_block` touches, with the
`..Default::default()` fields defaulted as in `alloy_consensus::Header`. -/
structure HeaderL where
  parent_hash : Nat := 0
  ommers_hash : Nat := 0
  beneficiary : Nat := 0
  state_root : Nat := 0
  withdrawals_root : Option Nat := none
  difficulty : Nat := 0
  number : Nat := 0
  gas_limit : Nat := 0
  gas_used : Nat := 0
  timestamp : Nat := 0
  mix_hash : Nat := 0
  nonce : Nat := 0
  base_fee_per_gas : Option Nat := none
  blob_gas_used : Option Nat := none
  excess_blob_gas : Option Nat := none
  parent_beacon_block_root : Option Nat := none
  requests_hash : Option Nat := none
deriving DecidableEq, Repr

/-- Keccak hash of the RLP-encoded empty ommers list
(`alloy_consensus::EMPTY_OMMER_ROOT_HASH`). -/
def EMPTY_OMMER_ROOT_HASH : Nat :=
  0x1dcc4de8dec75d7aab85b567b6ccd41ad312451b948a7413f0a142fd40d49347

/-- Root of the empty withdrawals trie (`alloy_consensus::constants::EMPTY_WITHDRAWALS`). -/
def EMPTY_WITHDRAWALS : Nat :=
  0x56e81f171bcc55a6ff8345e692c0f86e5b48e01b996cadc001622fb5e363b421

/-- The post-merge beacon block nonce (`alloy_eips::merge::BEACON_NONCE`, zero). -/
def BEACON_NONCE : Nat := 0

/-- The constant block gas limit the pipeline requests (source line 136). -/
def BLOCK_GAS_LIMIT_1G : Nat := 1000000000

/-- The ordered block delivered by the Coordinator (block ids, the coinbase
and `prev_randao` abstracted to naturals, withdrawals to an opaque list). -/
structure OrderedBlockL where
  parent_id : Nat
  id : Nat
  number : Nat
  timestamp : Nat
  coinbase : Nat
  prev_randao : Nat
  withdrawals : List Nat
  transactions : List Tx
  senders : List Address
deriving DecidableEq, Repr

/-- Modelled from the spec: the chain-spec collaborator (hardfork predicates
indexed by timestamp and the next-block base-fee computation from the parent
header) and the withdrawals-root computation — these live outside the
published sources (`reth_chainspec` / `proofs::calculate_withdrawals_root`). -/
structure ChainSpecL where
  is_shanghai_active_at_timestamp : Nat → Bool
  is_cancun_active_at_timestamp : Nat → Bool
  is_prague_active_at_timestamp : Nat → Bool
  next_base_fee : HeaderL → Nat
  calc_withdrawals_root : List Nat → Nat

/-- The block environment of the next-block EVM env. -/
structure BlockEnvL where
  basefee : Nat
  gasLimit : Nat
deriving DecidableEq, Repr

/-- Modelled from the spec: `evm_config.next_evm_env(parent, attributes)`
produces the next block's `basefee` from the chain config and the parent
header, and carries the requested `gas_limit` attribute through. -/
def next_evm_env (cs : ChainSpecL) (parent : HeaderL) (attrsGasLimit : Nat) :
    BlockEnvL :=
  ⟨cs.next_base_fee parent, attrsGasLimit⟩

/-- The `.to::<u64>()` conversion: panics (models as `none`) when the value
does not fit a `u64`. -/
def toU64 (n : Nat) : Option Nat :=
  if n < U64LIM then some n else none

/-- The header-skeleton portion of `Core::execute_ordered_block` (source
lines 253-302): build the header from the ordered block and the parent
header, then apply the Shanghai and Cancun conditional fields. -/
def build_header_skeleton (cs : ChainSpecL) (ob : OrderedBlockL)
    (parent : HeaderL) : Option HeaderL := do
  let evm_env := next_evm_env cs parent BLOCK_GAS_LIMIT_1G
  let bf ← toU64 evm_env.basefee
  let h0 : HeaderL :=
    { ommers_hash := EMPTY_OMMER_ROOT_HASH
      beneficiary := ob.coinbase
      timestamp := ob.timestamp
      mix_hash := ob.prev_randao
      nonce := BEACON_NONCE
      base_fee_per_gas := some bf
      number := ob.number
      gas_limit := evm_env.gasLimit
      difficulty := 0 }
  let h1 :=
    if cs.is_shanghai_active_at_timestamp ob.timestamp then
      if ob.withdrawals.isEmpty then
        { h0 with withdrawals_root := some EMPTY_WITHDRAWALS }
      else
        { h0 with withdrawals_root := some (cs.calc_withdrawals_root ob.withdrawals) }
    else h0
  let h2 :=
    if cs.is_cancun_active_at_timestamp ob.timestamp then
      { h1 with
          parent_beacon_block_root := some ob.parent_id
          excess_blob_gas := some 0
          blob_gas_used := some 0 }
    else h1
  some h2

/-- C8: the header skeleton built in stage 1 has: `ommers_hash` the
empty-ommers constant, `beneficiary` the ordered block's coinbase,
`timestamp`, `mix_hash` and `number` from the ordered block, `nonce` the
beacon nonce constant, `difficulty` 0, `gas_limit` 1,000,000,000, and
`base_fee_per_gas` the value the chain config computes from the parent
header; when Cancun is active at the block timestamp,
`parent_beacon_block_root` is the ordered block's `parent_id` and the two
blob-gas fields are 0. -/
theorem header_skeleton_fields (cs : ChainSpecL) (ob : OrderedBlockL)
    (parent : HeaderL) (hbf : cs.next_base_fee parent < U64LIM) :
    ∃ hd : HeaderL,
      build_header_skeleton cs ob parent = some hd ∧
      hd.ommers_hash = EMPTY_OMMER_ROOT_HASH ∧
      hd.beneficiary = ob.coinbase ∧
      hd.timestamp = ob.timestamp ∧
      hd.mix_hash = ob.prev_randao ∧
      hd.number = ob.number ∧
      hd.nonce = BEACON_NONCE ∧
      hd.difficulty = 0 ∧
      hd.gas_limit = 1000000000 ∧
      hd.base_fee_per_gas = some (cs.next_base_fee parent) ∧
      (cs.is_cancun_active_at_timestamp ob.timestamp = true →
        hd.parent_beacon_block_root = some ob.parent_id ∧
        hd.excess_blob_gas = some 0 ∧
        hd.blob_gas_used = some 0) := by
  unfold build_header_skeleton next_evm_env toU64
  by_cases hsh : cs.is_shanghai_active_at_timestamp ob.timestamp <;>
    by_cases hcn : cs.is_cancun_active_at_timestamp ob.timestamp <;>
      by_cases hwd : ob.withdrawals.isEmpty <;>
        simp [hsh, hcn, hwd, hbf, BLOCK_GAS_LIMIT_1G]

/-- Concrete chain spec used by the witness: all hardforks active, base fee
computed as parent gas limit plus seven. -/
def csW : ChainSpecL :=
  ⟨fun _ => true, fun _ => true, fun _ => true, fun p => p.gas_limit + 7,
    fun w => w.length⟩

/-- Concrete ordered block used by the witness. -/
def obW : OrderedBlockL := ⟨77, 78, 12, 1700000000, 9, 3, [], txsW, sendersW⟩

theorem header_skeleton_fields_witness :
    csW.next_base_fee {} < U64LIM ∧
    ∃ hd : HeaderL,
      build_header_skeleton csW obW {} = some hd ∧
      hd.ommers_hash = EMPTY_OMMER_ROOT_HASH ∧
      hd.beneficiary = obW.coinbase ∧
      hd.timestamp = obW.timestamp ∧
      hd.mix_hash = obW.prev_randao ∧
      hd.number = obW.number ∧
      hd.nonce = BEACON_NONCE ∧
      hd.difficulty = 0 ∧
      hd.gas_limit = 1000000000 ∧
      hd.base_fee_per_gas = some (csW.next_base_fee {}) ∧
      (csW.is_cancun_active_at_timestamp obW.timestamp = true →
        hd.parent_beacon_block_root = some obW.parent_id ∧
        hd.excess_blob_gas = some 0 ∧
        hd.blob_gas_used = some 0) :=
  ⟨by norm_num [csW, U64LIM],
    header_skeleton_fields csW obW {} (by norm_num [csW, U64LIM])⟩

/-! ### C4: the MakeCanonical event stream is consecutive -/

/-- State of the stage-6 interaction: which block numbers have been published
on `make_canonical_barrier`, which per-block tasks have emitted their
`MakeCanonical` event, and the egress log in emission order. The keyed
rendezvous channel is modelled from the spec (§4.1): `wait(N-1)` resumes only
once key `N-1` holds a published value. -/
structure MCState where
  notifiedKeys : List Nat
  emittedBlocks : List Nat
  egressLog : List Nat
deriving DecidableEq, Repr

/-- Interleaving semantics of stage 6 across per-block tasks (source lines
211-225): the task of block `N > L` (the dispatch loop only spawns numbers
above the seeded latest block `L`) emits its `MakeCanonical` event only once
`wait(make_canonical_barrier, N-1)` can return, i.e. key `N-1` is published;
it publishes key `N` only after its own emission (the notify is the last
statement of the stage); each task runs the stage once. -/
inductive MCStep (L : Nat) : MCState → MCState → Prop
  | emit (N : Nat) (s : MCState) :
      L < N → (N - 1) ∈ s.notifiedKeys → N ∉ s.emittedBlocks →
      MCStep L s ⟨s.notifiedKeys, N :: s.emittedBlocks, s.egressLog ++ [N]⟩
  | notifyKey (N : Nat) (s : MCState) :
      N ∈ s.emittedBlocks → N ∉ s.notifiedKeys →
      MCStep L s ⟨N :: s.notifiedKeys, s.emittedBlocks, s.egressLog⟩

/-- Initial state: `make_canonical_barrier` is pre-seeded at the latest block
number `L` (`Channel::new_with_states`), nothing emitted yet. -/
def mcInit (L : Nat) : MCState := ⟨[L], [], []⟩

/-- Reachability under the interleaving semantics. -/
inductive MCReach (L : Nat) : MCState → Prop
  | start : MCReach L (mcInit L)
  | next {s t : MCState} : MCReach L s → MCStep L s t → MCReach L t

/-- Inductive invariant: the emitted blocks form the interval `[L+1, L+m]`,
the published keys form `{L} ∪ [L+1, L+k]` with `k ≤ m ≤ k + 1`, and the
egress log is exactly `L+1, …, L+m` in order. -/
def MCInv (L : Nat) (s : MCState) : Prop :=
  ∃ m k : Nat, k ≤ m ∧ m ≤ k + 1 ∧
    (∀ x, x ∈ s.emittedBlocks ↔ (L + 1 ≤ x ∧ x ≤ L + m)) ∧
    (∀ x, x ∈ s.notifiedKeys ↔ (x = L ∨ (L + 1 ≤ x ∧ x ≤ L + k))) ∧
    s.egressLog = List.range' (L + 1) m

theorem mcInv_reach {L : Nat} {s : MCState} (h : MCReach L s) : MCInv L s := by
  induction h with
  | start =>
    refine ⟨0, 0, Nat.le_refl 0, by omega, ?_, ?_, rfl⟩
    · intro x
      simp [mcInit]
      omega
    · intro x
      simp [mcInit]
      omega
  | next hr hstep ih =>
    obtain ⟨m, k, hkm, hmk, hem, hnot, hlog⟩ := ih
    cases hstep with
    | emit N s1 hLN hwait hnew =>
      have hwait2 : N - 1 = L ∨ (L + 1 ≤ N - 1 ∧ N - 1 ≤ L + k) := (hnot _).mp hwait
      have hnew2 : ¬(L + 1 ≤ N ∧ N ≤ L + m) := fun hx => hnew ((hem N).mpr hx)
      have key : N = L + m + 1 ∧ k = m := by omega
      refine ⟨m + 1, k, by omega, by omega, ?_, hnot, ?_⟩
      · intro x
        simp only [List.mem_cons, hem x]
        omega
      · dsimp only
        have harr : L + 1 + 1 * m = L + m + 1 := by ring
        rw [hlog, key.1, List.range'_concat, harr]
    | notifyKey N s1 hemN hnotN =>
      have hem2 : L + 1 ≤ N ∧ N ≤ L + m := (hem N).mp hemN
      have hnot2 : ¬(N = L ∨ (L + 1 ≤ N ∧ N ≤ L + k)) := fun hx =>
        hnotN ((hnot N).mpr hx)
      have key : N = L + k + 1 ∧ k + 1 ≤ m := by omega
      refine ⟨m, k + 1, by omega, by omega, hem, ?_, hlog⟩
      intro x
      simp only [List.mem_cons, hnot x]
      omega

/-- C4: in any run starting from latest block number `L`, the sequence of
`MakeCanonical` events observed on the egress channel is `L+1, L+2, …, L+m`:
strictly ascending in block number with step 1, beginning at `L + 1` — block
`N+1`'s stage 6 cannot emit before block `N`'s stage 6 has completed and
published its barrier key. -/
theorem make_canonical_log_consecutive {L : Nat} {s : MCState}
    (h : MCReach L s) : ∃ m : Nat, s.egressLog = List.range' (L + 1) m := by
  obtain ⟨m, k, -, -, -, -, hlog⟩ := mcInv_reach h
  exact ⟨m, hlog⟩

theorem make_canonical_log_consecutive_witness :
    MCReach 5 ⟨[6, 5], [7, 6], [6, 7]⟩ ∧
    ∃ m : Nat, ([6, 7] : List Nat) = List.range' 6 m := by
  have h1 : MCReach 5 ⟨[5], [6], [6]⟩ :=
    MCReach.next MCReach.start
      (MCStep.emit 6 (mcInit 5) (by decide) (by decide) (by decide))
  have h2 : MCReach 5 ⟨[6, 5], [6], [6]⟩ :=
    MCReach.next h1 (MCStep.notifyKey 6 ⟨[5], [6], [6]⟩ (by decide) (by decide))
  have h3 : MCReach 5 ⟨[6, 5], [7, 6], [6, 7]⟩ :=
    MCReach.next h2 (MCStep.emit 7 ⟨[6, 5], [6], [6]⟩ (by decide) (by decide) (by decide))
  exact ⟨h3, make_canonical_log_consecutive h3⟩

end GravityReth
